import Mathlib

set_option maxRecDepth 100000

/-!
Verification development for the PTGC/UFO dashboard data-fetching scripts.

The repository consists of Node.js scripts that fetch burn/metric data from
blockchain-indexing APIs, merge it with previously persisted JSON history,
aggregate period totals and roll up snapshot histories.  This file gives a
shallow embedding of the pure cores of those scripts:

* `mergeBurns`               — scripts/fetch-burn-history.js (optimized variant),
                               dedupe-by-txHash merge of burn record lists;
* `fetchMergeBurns`          — the concat-and-sort merge step inside `fetchAllBurns`
                               of the Moralis variant;
* `calculatePeriods`         — the age-accumulating period aggregator;
* `calculatePeriodBurns`     — the cutoff-filter period aggregator;
* `rollupSnapshots`          — the metrics collector's snapshot rollup;
* `fetchLoop` / `bscanLoop` / `v3Loop`
                             — the pagination loops of the Moralis and
                               blockscout burn fetchers, modelled over an
                               explicit list of API responses;
* startup/credential behaviour of the individual scripts.

JavaScript numbers are modelled by `Int` (epoch-millisecond timestamps,
raw token base units) and `Rat` (token amounts, USD metrics); JS `undefined`
by `Option`.  ISO-8601 timestamp strings are modelled by their epoch
milliseconds; `substring(0,13)` (the hour key of an ISO string) corresponds
to flooring division by 3600000, `substring(0,10)` (the day key) to flooring
division by 86400000.  `Array.prototype.sort` is stable (ES2019), so it is
modelled by `List.insertionSort` with a non-strict comparator, which computes
the unique stable sorted permutation.
-/

/-- A JavaScript value used as a `Set` key in `mergeBurns`:
`existingBurns.map(b => b.txHash || b.t)` yields a string (txHash truthy),
or the number `b.t` (txHash absent/empty); `txHashSet.has(burn.txHash)` queries
the raw `txHash`, which may be `undefined`.  JS `Set` membership (SameValueZero)
never identifies a string with a number or with `undefined`. -/
inductive JSKey where
  | str : String → JSKey
  | num : Int → JSKey
  | jsUndefined : JSKey
deriving DecidableEq, Repr

/-- A burn record as handled by `mergeBurns` and `calculatePeriodBurns`:
`{ timestamp, amount, txHash, from }`.  `timestamp` is the effective numeric
timestamp (callers map compacted `{t, a, tx}` records to this shape via
`{...b, timestamp: b.t, amount: b.a, txHash: b.tx}`); `txHash = none` models a
record whose transaction hash is absent (legacy format). -/
structure MBurn where
  timestamp : Int
  amount : Rat
  txHash : Option String
  fromA : String
deriving DecidableEq, Repr

/-- The key contributed by an existing record to the dedup set:
`b.txHash || b.t` (falls back to the numeric timestamp when `txHash` is
absent or the empty string, both falsy). -/
def mapKey (b : MBurn) : JSKey :=
  match b.txHash with
  | some h => if h = "" then .num b.timestamp else .str h
  | none => .num b.timestamp

/-- The key an incoming record is queried and inserted with:
the raw `burn.txHash` value (possibly `undefined`). -/
def queryKey (b : MBurn) : JSKey :=
  match b.txHash with
  | some h => .str h
  | none => .jsUndefined

/-- The insertion phase of `mergeBurns`: walk the incoming records, skip any
whose `txHash` is already in the seen set, otherwise append the record and add
its `txHash` to the set. -/
def dedupAdd (seen : List JSKey) : List MBurn → List MBurn
  | [] => []
  | b :: rest =>
    if queryKey b ∈ seen then dedupAdd seen rest
    else b :: dedupAdd (queryKey b :: seen) rest

/-- The comparator of `merged.sort((a, b) => (b.timestamp || b.t) - (a.timestamp || a.t))`:
timestamp-descending. -/
def mergeGE (a b : MBurn) : Prop := b.timestamp ≤ a.timestamp

instance : DecidableRel mergeGE := fun a b => inferInstanceAs (Decidable (b.timestamp ≤ a.timestamp))

instance : IsTotal MBurn mergeGE := ⟨fun a b => (le_total b.timestamp a.timestamp).imp id id⟩

instance : IsTrans MBurn mergeGE := ⟨fun _ _ _ h1 h2 => le_trans h2 h1⟩

/-- `mergeBurns(existingBurns, newBurns)`: build a `Set` of the existing
records' `txHash || t` keys, start from a copy of `existingBurns`, push each
incoming record whose `txHash` is not yet in the set, then stable-sort the
result by timestamp descending. -/
def mergeBurns (existingBurns newBurns : List MBurn) : List MBurn :=
  List.insertionSort mergeGE (existingBurns ++ dedupAdd (existingBurns.map mapKey) newBurns)

/-- A compact burn record `{ t, a, f }` as produced by the Moralis burn
fetchers (timestamp, amount, lowercased from-address). -/
structure CBurn where
  t : Int
  a : Rat
  f : String
deriving DecidableEq, Repr

/-- Timestamp-descending comparator `(a, b) => b.t - a.t` on compact records. -/
def cburnGE (a b : CBurn) : Prop := b.t ≤ a.t

instance : DecidableRel cburnGE := fun a b => inferInstanceAs (Decidable (b.t ≤ a.t))

instance : IsTotal CBurn cburnGE := ⟨fun a b => (le_total b.t a.t).imp id id⟩

instance : IsTrans CBurn cburnGE := ⟨fun _ _ _ h1 h2 => le_trans h2 h1⟩

/-- The merge step inside the Moralis `fetchAllBurns`:
`[...newBurns, ...existingBurns]` sorted by timestamp descending
(no deduplication at all). -/
def fetchMergeBurns (newBurns existingBurns : List CBurn) : List CBurn :=
  List.insertionSort cburnGE (newBurns ++ existingBurns)

/-! ### Lemmas about the dedup phase of `mergeBurns` -/

/-- Every record admitted by the dedup phase comes from the incoming list. -/
theorem dedupAdd_subset {l : List MBurn} :
    ∀ {seen : List JSKey} {b : MBurn}, b ∈ dedupAdd seen l → b ∈ l := by
  induction l with
  | nil => intro seen b h; simp [dedupAdd] at h
  | cons x rest ih =>
    intro seen b h
    simp only [dedupAdd] at h
    by_cases hx : queryKey x ∈ seen
    · rw [if_pos hx] at h
      exact List.mem_cons_of_mem _ (ih h)
    · rw [if_neg hx] at h
      rcases List.mem_cons.1 h with h | h
      · exact h ▸ List.mem_cons_self _ _
      · exact List.mem_cons_of_mem _ (ih h)

/-- If every incoming record's query key is already seen, nothing is admitted. -/
theorem dedupAdd_eq_nil {l : List MBurn} :
    ∀ {seen : List JSKey}, (∀ b ∈ l, queryKey b ∈ seen) → dedupAdd seen l = [] := by
  induction l with
  | nil => intro seen _; rfl
  | cons x rest ih =>
    intro seen h
    have hx : queryKey x ∈ seen := h x (List.mem_cons_self _ _)
    simp only [dedupAdd, if_pos hx]
    exact ih fun b hb => h b (List.mem_cons_of_mem _ hb)

/-- After the dedup phase, every incoming record's query key is accounted for:
either it was already seen, or a record carrying that key was admitted. -/
theorem queryKey_covered {l : List MBurn} :
    ∀ {seen : List JSKey}, ∀ b ∈ l,
      queryKey b ∈ seen ∨ queryKey b ∈ (dedupAdd seen l).map queryKey := by
  induction l with
  | nil => intro seen b h; simp at h
  | cons x rest ih =>
    intro seen b hb
    simp only [dedupAdd]
    by_cases hx : queryKey x ∈ seen
    · rw [if_pos hx]
      rcases List.mem_cons.1 hb with rfl | hb
      · exact Or.inl hx
      · exact ih b hb
    · rw [if_neg hx]
      rcases List.mem_cons.1 hb with rfl | hb
      · exact Or.inr (by simp)
      · rcases @ih (queryKey x :: seen) b hb with h | h
        · rcases List.mem_cons.1 h with h | h
          · exact Or.inr (by simp [h])
          · exact Or.inl h
        · exact Or.inr (by simp [h] )

/-- The dedup phase only looks at membership of query keys in the seen set:
two seen sets agreeing on all query keys admit the same records. -/
theorem dedupAdd_seen_congr {l : List MBurn} :
    ∀ {s₁ s₂ : List JSKey},
      (∀ b : MBurn, queryKey b ∈ s₁ ↔ queryKey b ∈ s₂) →
      dedupAdd s₁ l = dedupAdd s₂ l := by
  induction l with
  | nil => intro s₁ s₂ _; rfl
  | cons x rest ih =>
    intro s₁ s₂ h
    simp only [dedupAdd]
    by_cases hx : queryKey x ∈ s₁
    · rw [if_pos hx, if_pos ((h x).1 hx)]
      exact ih h
    · rw [if_neg hx, if_neg (fun hc => hx ((h x).2 hc))]
      refine congrArg _ (ih fun b => ?_)
      simp only [List.mem_cons]
      exact or_congr Iff.rfl (h b)

/-- For a record with a present, non-empty transaction hash the stored key and
the queried key coincide. -/
theorem mapKey_eq_queryKey {b : MBurn}
    (h1 : b.txHash ≠ none) (h2 : b.txHash ≠ some "") : mapKey b = queryKey b := by
  rcases hb : b.txHash with _ | s
  · exact absurd hb h1
  · have hs : s ≠ "" := fun hc => h2 (by rw [hb, hc])
    simp [mapKey, queryKey, hb, hs]

/-! ### C1: idempotence of the merge -/

/-- C1 counterexample: merge applied twice with the same incoming set differs
from merge applied once.  Left leg: `mergeBurns` re-adds an incoming record
that lacks a transaction hash (it is inserted under the key `undefined`, but
once stored it contributes its numeric timestamp to the seen set, so a second
merge does not recognise it).  Right leg: the concat-based merge step of the
Moralis `fetchAllBurns` performs no deduplication at all, so re-merging the
same incoming record duplicates it. -/
theorem merge_twice_ne_merge_once :
    mergeBurns (mergeBurns [] [⟨5, 1, none, ""⟩]) [⟨5, 1, none, ""⟩] ≠
      mergeBurns [] [⟨5, 1, none, ""⟩]
    ∧ fetchMergeBurns [⟨1000, 5, ""⟩] (fetchMergeBurns [⟨1000, 5, ""⟩] []) ≠
      fetchMergeBurns [⟨1000, 5, ""⟩] [] := by
  constructor <;> decide

/-- C1 (amended): `mergeBurns` is idempotent provided every incoming record
carries a present, non-empty transaction hash:
`mergeBurns (mergeBurns H I) I = mergeBurns H I`. -/
theorem mergeBurns_idempotent (H I : List MBurn)
    (hI : ∀ b ∈ I, b.txHash ≠ none ∧ b.txHash ≠ some "") :
    mergeBurns (mergeBurns H I) I = mergeBurns H I := by
  have hperm : List.Perm (mergeBurns H I) (H ++ dedupAdd (H.map mapKey) I) :=
    List.perm_insertionSort _ _
  have hcov : ∀ b ∈ I, queryKey b ∈ (mergeBurns H I).map mapKey := by
    intro b hb
    have hmem : queryKey b ∈ (H ++ dedupAdd (H.map mapKey) I).map mapKey := by
      rcases @queryKey_covered I (H.map mapKey) b hb with h | h
      · rw [List.map_append]
        exact List.mem_append.2 (Or.inl h)
      · rcases List.mem_map.1 h with ⟨a, haA, hak⟩
        have haI : a ∈ I := dedupAdd_subset haA
        have heq : mapKey a = queryKey a :=
          mapKey_eq_queryKey (hI a haI).1 (hI a haI).2
        rw [List.map_append]
        exact List.mem_append.2 (Or.inr (List.mem_map.2 ⟨a, haA, by rw [heq, hak]⟩))
    exact ((hperm.map mapKey).mem_iff).2 hmem
  have hnil : dedupAdd ((mergeBurns H I).map mapKey) I = [] := dedupAdd_eq_nil hcov
  have hsorted : List.Sorted mergeGE (mergeBurns H I) := by
    unfold mergeBurns
    exact List.sorted_insertionSort _ _
  show List.insertionSort mergeGE (mergeBurns H I ++ dedupAdd _ I) = mergeBurns H I
  rw [hnil, List.append_nil]
  exact hsorted.insertionSort_eq

/-- C1 witness: the amended idempotence at the spec's own example
(existing `[{t:1000,a:5,tx:"a"}]`, incoming `[{t:2000,a:3,tx:"b"},{t:1000,a:5,tx:"a"}]`). -/
theorem mergeBurns_idempotent_witness :
    (∀ b ∈ ([⟨2000, 3, some "b", ""⟩, ⟨1000, 5, some "a", ""⟩] : List MBurn),
        b.txHash ≠ none ∧ b.txHash ≠ some "")
    ∧ mergeBurns (mergeBurns [⟨1000, 5, some "a", ""⟩]
          [⟨2000, 3, some "b", ""⟩, ⟨1000, 5, some "a", ""⟩])
        [⟨2000, 3, some "b", ""⟩, ⟨1000, 5, some "a", ""⟩] =
      mergeBurns [⟨1000, 5, some "a", ""⟩]
        [⟨2000, 3, some "b", ""⟩, ⟨1000, 5, some "a", ""⟩] :=
  ⟨by decide, mergeBurns_idempotent [⟨1000, 5, some "a", ""⟩]
    [⟨2000, 3, some "b", ""⟩, ⟨1000, 5, some "a", ""⟩] (by decide)⟩

/-! ### C8: legacy records without a transaction identifier -/

/-- C8: when every existing record lacks a transaction hash (legacy format),
`mergeBurns` behaves as if the seen set were empty — no incoming record is
deduplicated against a legacy record (legacy keys are numbers, incoming query
keys are strings or `undefined`) — and every legacy record is kept in the
result with at least its multiplicity. -/
theorem mergeBurns_legacy (H I : List MBurn) (hH : ∀ b ∈ H, b.txHash = none) :
    mergeBurns H I = List.insertionSort mergeGE (H ++ dedupAdd [] I)
    ∧ ∀ b : MBurn, H.count b ≤ (mergeBurns H I).count b := by
  constructor
  · unfold mergeBurns
    have hdd : dedupAdd (H.map mapKey) I = dedupAdd [] I := by
      apply dedupAdd_seen_congr
      intro b
      simp only [List.not_mem_nil, iff_false]
      intro hc
      rcases List.mem_map.1 hc with ⟨a, haH, hak⟩
      have hnone := hH a haH
      rcases hqb : b.txHash with _ | s <;>
        simp [mapKey, queryKey, hnone, hqb] at hak
    rw [hdd]
  · intro b
    have hperm : List.Perm (mergeBurns H I) (H ++ dedupAdd (H.map mapKey) I) :=
      List.perm_insertionSort _ _
    rw [List.Perm.count_eq hperm, List.count_append]
    exact Nat.le_add_right _ _

/-- C8 witness: a legacy-only existing history and a fresh incoming record. -/
theorem mergeBurns_legacy_witness :
    (∀ b ∈ ([⟨1000, 5, none, ""⟩] : List MBurn), b.txHash = none)
    ∧ (mergeBurns [⟨1000, 5, none, ""⟩] [⟨2000, 3, some "b", ""⟩] =
        List.insertionSort mergeGE
          ([⟨1000, 5, none, ""⟩] ++ dedupAdd [] [⟨2000, 3, some "b", ""⟩])
      ∧ ∀ b : MBurn, List.count b [⟨1000, 5, none, ""⟩] ≤
          List.count b (mergeBurns [⟨1000, 5, none, ""⟩] [⟨2000, 3, some "b", ""⟩])) :=
  ⟨by decide, mergeBurns_legacy [⟨1000, 5, none, ""⟩] [⟨2000, 3, some "b", ""⟩] (by decide)⟩

/-! ### Period aggregation -/

/-- `12 * 60 * 60 * 1000` ms. -/
def h12ms : Int := 12 * 60 * 60 * 1000

/-- `24 * 60 * 60 * 1000` ms. -/
def h24ms : Int := 24 * 60 * 60 * 1000

/-- `7 * 24 * 60 * 60 * 1000` ms. -/
def d7ms : Int := 7 * 24 * 60 * 60 * 1000

/-- `30 * 24 * 60 * 60 * 1000` ms. -/
def d30ms : Int := 30 * 24 * 60 * 60 * 1000

/-- One `{ count, amount }` bucket of the period aggregators. -/
structure PeriodCell where
  count : Nat
  amount : Rat
deriving DecidableEq, Repr

/-- The four shared window buckets returned by the period aggregators. -/
structure Periods where
  h12 : PeriodCell
  h24 : PeriodCell
  d7 : PeriodCell
  d30 : PeriodCell
deriving DecidableEq, Repr

/-- The loop body of `calculatePeriods`: for each burn, compare its age
`now - burn.t` against each window and accumulate count/amount. -/
def calcStep (now : Int) (r : Periods) (burn : CBurn) : Periods :=
  let age := now - burn.t
  { h12 := if age ≤ h12ms then ⟨r.h12.count + 1, r.h12.amount + burn.a⟩ else r.h12
    h24 := if age ≤ h24ms then ⟨r.h24.count + 1, r.h24.amount + burn.a⟩ else r.h24
    d7 := if age ≤ d7ms then ⟨r.d7.count + 1, r.d7.amount + burn.a⟩ else r.d7
    d30 := if age ≤ d30ms then ⟨r.d30.count + 1, r.d30.amount + burn.a⟩ else r.d30 }

/-- `calculatePeriods(burns)` of the burn-history fetchers, with `Date.now()`
made an explicit parameter: fold the accumulating loop body over the burn list
starting from all-zero buckets. -/
def calculatePeriods (now : Int) (burns : List CBurn) : Periods :=
  burns.foldl (calcStep now) ⟨⟨0, 0⟩, ⟨0, 0⟩, ⟨0, 0⟩, ⟨0, 0⟩⟩

/-- One window of `calculatePeriodBurns`: filter records with
`b.timestamp >= cutoff` (`cutoff = now - ms`), then count and reduce-sum. -/
def periodCellOf (now w : Int) (burns : List MBurn) : PeriodCell :=
  let cutoff := now - w
  let periodBurns := burns.filter fun b => decide (cutoff ≤ b.timestamp)
  ⟨periodBurns.length, periodBurns.foldl (fun s b => s + b.amount) 0⟩

/-- `calculatePeriodBurns(burns)` of the original burn-history script, with
`Date.now()` made an explicit parameter: the cutoff-filter aggregator over the
same four windows. -/
def calculatePeriodBurns (now : Int) (burns : List MBurn) : Periods :=
  ⟨periodCellOf now h12ms burns, periodCellOf now h24ms burns,
   periodCellOf now d7ms burns, periodCellOf now d30ms burns⟩

/-- Closed form of one bucket: the records of age at most `w`, counted and
summed. -/
def specCell (now w : Int) (burns : List CBurn) : PeriodCell :=
  ⟨(burns.filter fun b => decide (now - b.t ≤ w)).length,
   ((burns.filter fun b => decide (now - b.t ≤ w)).map (·.a)).sum⟩

theorem foldl_add_eq_sum {α : Type} (g : α → Rat) :
    ∀ (l : List α) (s : Rat), l.foldl (fun acc x => acc + g x) s = s + (l.map g).sum := by
  intro l
  induction l with
  | nil => intro s; simp
  | cons x rest ih => intro s; simp [ih, add_assoc]

/-- One window's worth of the `calculatePeriods` loop body. -/
def cellStep (now w : Int) (c : PeriodCell) (b : CBurn) : PeriodCell :=
  if now - b.t ≤ w then ⟨c.count + 1, c.amount + b.a⟩ else c

theorem foldl_calcStep_components (now : Int) :
    ∀ (burns : List CBurn) (r : Periods),
      burns.foldl (calcStep now) r =
        ⟨burns.foldl (cellStep now h12ms) r.h12, burns.foldl (cellStep now h24ms) r.h24,
         burns.foldl (cellStep now d7ms) r.d7, burns.foldl (cellStep now d30ms) r.d30⟩ := by
  intro burns
  induction burns with
  | nil => intro r; rfl
  | cons b rest ih =>
    intro r
    rw [List.foldl_cons, ih]
    rfl

theorem foldl_cellStep_eq (now w : Int) :
    ∀ (burns : List CBurn) (c : PeriodCell),
      burns.foldl (cellStep now w) c =
        ⟨c.count + (specCell now w burns).count,
         c.amount + (specCell now w burns).amount⟩ := by
  intro burns
  induction burns with
  | nil => intro c; simp [specCell]
  | cons b rest ih =>
    intro c
    rw [List.foldl_cons, ih]
    by_cases h : now - b.t ≤ w
    · simp only [cellStep, if_pos h, specCell, List.filter_cons, decide_eq_true_eq, h,
        if_true, List.length_cons, List.map_cons, List.sum_cons, PeriodCell.mk.injEq]
      exact ⟨by omega, by ring⟩
    · simp only [cellStep, if_neg h, specCell, List.filter_cons, decide_eq_true_eq, h,
        if_false, PeriodCell.mk.injEq]

theorem calculatePeriods_eq_specCells (now : Int) (burns : List CBurn) :
    calculatePeriods now burns =
      ⟨specCell now h12ms burns, specCell now h24ms burns,
       specCell now d7ms burns, specCell now d30ms burns⟩ := by
  rw [calculatePeriods, foldl_calcStep_components]
  simp [foldl_cellStep_eq]

theorem periodCellOf_map_eq_specCell (now w : Int) (l : List CBurn) :
    periodCellOf now w (l.map fun b => ⟨b.t, b.a, none, b.f⟩) = specCell now w l := by
  have hf : (l.map fun b => (⟨b.t, b.a, none, b.f⟩ : MBurn)).filter
        (fun b => decide (now - w ≤ b.timestamp)) =
      (l.filter fun b => decide (now - b.t ≤ w)).map
        fun b => (⟨b.t, b.a, none, b.f⟩ : MBurn) := by
    induction l with
    | nil => rfl
    | cons b rest ih =>
      simp only [List.map_cons, List.filter_cons, decide_eq_true_eq]
      by_cases hb : now - b.t ≤ w
      · rw [if_pos (show now - w ≤ b.t by omega), if_pos hb, List.map_cons, ih]
      · rw [if_neg (show ¬ now - w ≤ b.t by omega), if_neg hb, ih]
  simp only [periodCellOf, specCell, hf, List.length_map]
  rw [foldl_add_eq_sum]
  simp [List.map_map]
  rfl

theorem specCell_mono (now w1 w2 : Int) (hw : w1 ≤ w2) :
    ∀ (l : List CBurn), (∀ b ∈ l, 0 ≤ b.a) →
      (specCell now w1 l).count ≤ (specCell now w2 l).count
      ∧ (specCell now w1 l).amount ≤ (specCell now w2 l).amount := by
  intro l
  induction l with
  | nil => intro _; exact ⟨le_refl _, le_refl _⟩
  | cons b rest ih =>
    intro ha
    have hrest := ih fun x hx => ha x (List.mem_cons_of_mem _ hx)
    have hb0 : 0 ≤ b.a := ha b (List.mem_cons_self _ _)
    simp only [specCell] at hrest
    by_cases h1 : now - b.t ≤ w1
    · have h2 : now - b.t ≤ w2 := le_trans h1 hw
      simp only [specCell, List.filter_cons, decide_eq_true_eq, h1, h2, if_true,
        List.length_cons, List.map_cons, List.sum_cons]
      exact ⟨Nat.succ_le_succ hrest.1, add_le_add_left hrest.2 _⟩
    · by_cases h2 : now - b.t ≤ w2
      · simp only [specCell, List.filter_cons, decide_eq_true_eq, h1, h2, if_true,
          if_false, List.length_cons, List.map_cons, List.sum_cons]
        exact ⟨le_trans hrest.1 (Nat.le_succ _),
          le_trans hrest.2 (le_add_of_nonneg_left hb0)⟩
      · simp only [specCell, List.filter_cons, decide_eq_true_eq, h1, h2, if_false]
        exact hrest

/-! ### C4: the period aggregator counts/sums records of age at most the window -/

/-- C4: for every burn list and every `now`, `calculatePeriods` returns, for
each of the four windows, the count of records whose age `now - t` is at most
the window and the sum of their amounts; in particular with `now = 100000` a
record of age 1000 ms is counted in the 24h bucket and a record of age
90000000 ms is not. -/
theorem calculatePeriods_counts_and_sums (now : Int) (burns : List CBurn) :
    ((calculatePeriods now burns).h12.count =
        (burns.filter fun b => decide (now - b.t ≤ h12ms)).length
      ∧ (calculatePeriods now burns).h12.amount =
        ((burns.filter fun b => decide (now - b.t ≤ h12ms)).map (·.a)).sum)
    ∧ ((calculatePeriods now burns).h24.count =
        (burns.filter fun b => decide (now - b.t ≤ h24ms)).length
      ∧ (calculatePeriods now burns).h24.amount =
        ((burns.filter fun b => decide (now - b.t ≤ h24ms)).map (·.a)).sum)
    ∧ ((calculatePeriods now burns).d7.count =
        (burns.filter fun b => decide (now - b.t ≤ d7ms)).length
      ∧ (calculatePeriods now burns).d7.amount =
        ((burns.filter fun b => decide (now - b.t ≤ d7ms)).map (·.a)).sum)
    ∧ ((calculatePeriods now burns).d30.count =
        (burns.filter fun b => decide (now - b.t ≤ d30ms)).length
      ∧ (calculatePeriods now burns).d30.amount =
        ((burns.filter fun b => decide (now - b.t ≤ d30ms)).map (·.a)).sum)
    ∧ (calculatePeriods 100000 [⟨99000, 1, "x"⟩, ⟨100000 - 90000000, 1, "y"⟩]).h24 =
        ⟨1, 1⟩ := by
  refine ⟨?_, ?_, ?_, ?_, ?_⟩
  case refine_5 =>
    rw [calculatePeriods_eq_specCells]
    norm_num [specCell, h24ms, List.filter_cons]
  all_goals (rw [calculatePeriods_eq_specCells]; exact ⟨rfl, rfl⟩)

/-! ### C5: period totals are monotone in the window -/

/-- C5: when all amounts are non-negative, both count and amount of the
`calculatePeriods` buckets are monotone along the nested windows
12h ⊆ 24h ⊆ 7d ⊆ 30d (all six nested pairs). -/
theorem calculatePeriods_monotone (now : Int) (burns : List CBurn)
    (h : ∀ b ∈ burns, 0 ≤ b.a) :
    ((calculatePeriods now burns).h12.count ≤ (calculatePeriods now burns).h24.count
      ∧ (calculatePeriods now burns).h24.count ≤ (calculatePeriods now burns).d7.count
      ∧ (calculatePeriods now burns).d7.count ≤ (calculatePeriods now burns).d30.count
      ∧ (calculatePeriods now burns).h12.count ≤ (calculatePeriods now burns).d7.count
      ∧ (calculatePeriods now burns).h24.count ≤ (calculatePeriods now burns).d30.count
      ∧ (calculatePeriods now burns).h12.count ≤ (calculatePeriods now burns).d30.count)
    ∧ ((calculatePeriods now burns).h12.amount ≤ (calculatePeriods now burns).h24.amount
      ∧ (calculatePeriods now burns).h24.amount ≤ (calculatePeriods now burns).d7.amount
      ∧ (calculatePeriods now burns).d7.amount ≤ (calculatePeriods now burns).d30.amount
      ∧ (calculatePeriods now burns).h12.amount ≤ (calculatePeriods now burns).d7.amount
      ∧ (calculatePeriods now burns).h24.amount ≤ (calculatePeriods now burns).d30.amount
      ∧ (calculatePeriods now burns).h12.amount ≤ (calculatePeriods now burns).d30.amount) := by
  rw [calculatePeriods_eq_specCells]
  have m1 := specCell_mono now h12ms h24ms (by decide) burns h
  have m2 := specCell_mono now h24ms d7ms (by decide) burns h
  have m3 := specCell_mono now d7ms d30ms (by decide) burns h
  exact ⟨⟨m1.1, m2.1, m3.1, le_trans m1.1 m2.1, le_trans m2.1 m3.1,
      le_trans m1.1 (le_trans m2.1 m3.1)⟩,
    m1.2, m2.2, m3.2, le_trans m1.2 m2.2, le_trans m2.2 m3.2,
    le_trans m1.2 (le_trans m2.2 m3.2)⟩

/-- C5 witness: the monotonicity at a concrete one-record history. -/
theorem calculatePeriods_monotone_witness :
    (∀ b ∈ ([⟨99000, 1, "x"⟩] : List CBurn), 0 ≤ b.a)
    ∧ (calculatePeriods 100000 [⟨99000, 1, "x"⟩]).h12.count ≤
        (calculatePeriods 100000 [⟨99000, 1, "x"⟩]).h24.count :=
  ⟨by decide, (calculatePeriods_monotone 100000 [⟨99000, 1, "x"⟩] (by decide)).1.1⟩

/-! ### C10: the two period aggregators agree -/

/-- C10: for every burn list and every fixed `now`, the age-accumulating
`calculatePeriods` and the cutoff-filter `calculatePeriodBurns` return equal
buckets for each shared window (identifying the compact `t`/`a` fields with
`timestamp`/`amount`). -/
theorem calculatePeriods_eq_calculatePeriodBurns (now : Int) (l : List CBurn) :
    calculatePeriods now l =
      calculatePeriodBurns now (l.map fun b => ⟨b.t, b.a, none, b.f⟩) := by
  rw [calculatePeriods_eq_specCells]
  unfold calculatePeriodBurns
  rw [periodCellOf_map_eq_specCell, periodCellOf_map_eq_specCell,
    periodCellOf_map_eq_specCell, periodCellOf_map_eq_specCell]

/-! ### Snapshot rollup (metrics collector) -/

/-- A metrics snapshot.  The ISO-8601 `timestamp` string is modelled by its
epoch milliseconds `ts`; the numeric fields are the ones averaged by the
rollup (`(x.field || 0)` is the identity on present numeric fields). -/
structure Snap where
  ts : Int
  price : Rat
  volume24h : Rat
  liquidity : Rat
  liqMcapRatio : Rat
  holders : Rat
  tokensInLP : Rat
deriving DecidableEq, Repr

/-- `s.timestamp.substring(0, 13)` — the `YYYY-MM-DDTHH` hour key of an
ISO-8601 UTC timestamp — corresponds to flooring division of the epoch
milliseconds by 3600000. -/
def hourKeyOf (t : Int) : Int := t.fdiv 3600000

/-- `s.timestamp.substring(0, 10)` — the `YYYY-MM-DD` day key — corresponds to
flooring division of the epoch milliseconds by 86400000. -/
def dayKeyOf (t : Int) : Int := t.fdiv 86400000

/-- `MAX_30MIN_SNAPSHOTS = 96` (48 hours of 30-min data). -/
def MAX_30MIN_SNAPSHOTS : Nat := 96

/-- `MAX_HOURLY_SNAPSHOTS = 168` (7 days of hourly data). -/
def MAX_HOURLY_SNAPSHOTS : Nat := 168

/-- `MAX_DAILY_SNAPSHOTS = 90` (90 days of daily data). -/
def MAX_DAILY_SNAPSHOTS : Nat := 90

/-- `Math.round`: nearest integer, ties toward positive infinity. -/
def jsRound (q : Rat) : Int := Rat.floor (q + 1 / 2)

/-- `snapshots.reduce((s, x) => s + (x.field || 0), 0)`. -/
def sumBy (g : Snap → Rat) (l : List Snap) : Rat := l.foldl (fun s x => s + g x) 0

/-- Mean of a list of rationals (`sum / length`). -/
def ratMean (l : List Rat) : Rat := l.sum / l.length

/-- The averaged hourly record built for one hour group: timestamp
`hourKey + ':00:00.000Z'` (the hour start), each monetary/volume field the
plain mean, holders `Math.round`ed after averaging. -/
def hourlyAvg (hourKey : Int) (snapshots : List Snap) : Snap :=
  { ts := hourKey * 3600000
    price := sumBy (·.price) snapshots / snapshots.length
    volume24h := sumBy (·.volume24h) snapshots / snapshots.length
    liquidity := sumBy (·.liquidity) snapshots / snapshots.length
    liqMcapRatio := sumBy (·.liqMcapRatio) snapshots / snapshots.length
    holders := (jsRound (sumBy (·.holders) snapshots / snapshots.length) : Rat)
    tokensInLP := sumBy (·.tokensInLP) snapshots / snapshots.length }

/-- The averaged daily record for one day group: timestamp
`dayKey + 'T12:00:00.000Z'` (noon), fields as in `hourlyAvg`. -/
def dailyAvg (dayKey : Int) (snapshots : List Snap) : Snap :=
  { ts := dayKey * 86400000 + 43200000
    price := sumBy (·.price) snapshots / snapshots.length
    volume24h := sumBy (·.volume24h) snapshots / snapshots.length
    liquidity := sumBy (·.liquidity) snapshots / snapshots.length
    liqMcapRatio := sumBy (·.liqMcapRatio) snapshots / snapshots.length
    holders := (jsRound (sumBy (·.holders) snapshots / snapshots.length) : Rat)
    tokensInLP := sumBy (·.tokensInLP) snapshots / snapshots.length }

/-- Keys of a JS object built by pushing under each element's key:
`Object.entries` iterates the distinct keys in first-occurrence order. -/
def firstKeys (ks : List Int) : List Int :=
  ks.foldl (fun acc k => if k ∈ acc then acc else acc ++ [k]) []

/-- The list of averaged hourly entries produced (and `unshift`ed in this
order) by the fine-to-hourly rollup: one entry per distinct hour key among the
rolled-over snapshots, each averaging its group (groups are non-empty by
construction, so the JS `snapshots.length > 0` guard is the identity). -/
def hourlyRollupEntries (toRollup : List Snap) : List Snap :=
  (firstKeys (toRollup.map fun s => hourKeyOf s.ts)).map
    fun k => hourlyAvg k (toRollup.filter fun s => decide (hourKeyOf s.ts = k))

/-- The averaged daily entries of the hourly-to-daily rollup. -/
def dailyRollupEntries (toRollup : List Snap) : List Snap :=
  (firstKeys (toRollup.map fun s => dayKeyOf s.ts)).map
    fun k => dailyAvg k (toRollup.filter fun s => decide (dayKeyOf s.ts = k))

/-- One token's metrics history: fine-grained snapshots, hourly rollups and
daily rollups (each newest-first). -/
structure TokenData where
  snapshots : List Snap
  hourly : List Snap
  daily : List Snap
deriving DecidableEq, Repr

/-- The fine-to-hourly pass of `rollupSnapshots`: when the fine list exceeds
its cap, keep the snapshots newer than `now - 48h` (`ts > cutoff`), group the
rest by hour key, and `unshift` one averaged entry per group onto the hourly
list (so the new entries end up reversed in front). -/
def rollupFine (now : Int) (td : TokenData) : TokenData :=
  if MAX_30MIN_SNAPSHOTS < td.snapshots.length then
    { snapshots := td.snapshots.filter fun s => decide (now - 48 * 60 * 60 * 1000 < s.ts)
      hourly := (hourlyRollupEntries
          (td.snapshots.filter fun s => decide (s.ts ≤ now - 48 * 60 * 60 * 1000))).reverse
        ++ td.hourly
      daily := td.daily }
  else td

/-- The hourly-to-daily pass: same shape with a `now - 7d` cutoff and day
keys. -/
def rollupHourly (now : Int) (td : TokenData) : TokenData :=
  if MAX_HOURLY_SNAPSHOTS < td.hourly.length then
    { snapshots := td.snapshots
      hourly := td.hourly.filter fun s => decide (now - 7 * 24 * 60 * 60 * 1000 < s.ts)
      daily := (dailyRollupEntries
          (td.hourly.filter fun s => decide (s.ts ≤ now - 7 * 24 * 60 * 60 * 1000))).reverse
        ++ td.daily }
  else td

/-- The final trim: `daily = daily.slice(0, MAX_DAILY_SNAPSHOTS)` when over
cap. -/
def trimDaily (td : TokenData) : TokenData :=
  if MAX_DAILY_SNAPSHOTS < td.daily.length then
    { snapshots := td.snapshots, hourly := td.hourly,
      daily := td.daily.take MAX_DAILY_SNAPSHOTS }
  else td

/-- `rollupSnapshots(tokenData)` of the metrics collector, with `new Date()`
made the explicit parameter `now`: the three passes in program order. -/
def rollupSnapshots (now : Int) (td : TokenData) : TokenData :=
  trimDaily (rollupHourly now (rollupFine now td))

theorem mem_firstKeys_aux (k : Int) :
    ∀ (l acc : List Int),
      k ∈ l.foldl (fun acc k => if k ∈ acc then acc else acc ++ [k]) acc ↔
        k ∈ acc ∨ k ∈ l := by
  intro l
  induction l with
  | nil => intro acc; simp
  | cons x rest ih =>
    intro acc
    rw [List.foldl_cons]
    by_cases hx : x ∈ acc
    · rw [if_pos hx, ih]
      simp only [List.mem_cons]
      constructor
      · rintro (h | h) <;> tauto
      · rintro (h | rfl | h)
        · tauto
        · exact Or.inl hx
        · tauto
    · rw [if_neg hx, ih]
      simp only [List.mem_append, List.mem_cons, List.mem_singleton]
      tauto

theorem mem_firstKeys (k : Int) (l : List Int) : k ∈ firstKeys l ↔ k ∈ l := by
  rw [firstKeys, mem_firstKeys_aux]
  simp

/-- The hourly/daily passes leave the fields they do not touch unchanged. -/
theorem trimDaily_preserves (td : TokenData) :
    (trimDaily td).snapshots = td.snapshots ∧ (trimDaily td).hourly = td.hourly := by
  unfold trimDaily
  split_ifs <;> exact ⟨rfl, rfl⟩

/-! ### C2: behaviour of the rollup at fine-list overflow -/

/-- C2 counterexample: a fine list of cap+1 = 97 snapshots that are all newer
than the 48-hour cutoff triggers the rollup pass, but nothing is rolled over
and the fine list still has 97 > 96 entries afterwards — the pass does not
guarantee length ≤ cap. -/
theorem rollup_overflow_not_capped :
    MAX_30MIN_SNAPSHOTS <
      (rollupSnapshots 0
        ⟨List.replicate 97 ⟨0, 0, 0, 0, 0, 0, 0⟩, [], []⟩).snapshots.length := by
  decide

/-- C2 (amended): when the fine list exceeds the cap, the single rollup pass
keeps exactly the snapshots newer than `now - 48h` (the overflow is rolled up,
not dropped), prepends exactly one averaged hourly entry per distinct hour key
among the rolled-over snapshots, every rolled-over snapshot belongs to one of
those hour groups, and the fine list ends up within the cap provided at most
cap snapshots are newer than the cutoff (the hypothesis on the hourly length
keeps the same pass from also triggering the hourly-to-daily rollup). -/
theorem rollupSnapshots_overflow (now : Int) (td : TokenData)
    (h1 : MAX_30MIN_SNAPSHOTS < td.snapshots.length)
    (h2 : td.hourly.length + (hourlyRollupEntries
        (td.snapshots.filter fun s => decide (s.ts ≤ now - 48 * 60 * 60 * 1000))).length
      ≤ MAX_HOURLY_SNAPSHOTS) :
    (rollupSnapshots now td).snapshots =
      td.snapshots.filter (fun s => decide (now - 48 * 60 * 60 * 1000 < s.ts))
    ∧ (rollupSnapshots now td).hourly =
      (hourlyRollupEntries
        (td.snapshots.filter fun s => decide (s.ts ≤ now - 48 * 60 * 60 * 1000))).reverse
        ++ td.hourly
    ∧ ((td.snapshots.filter fun s => decide (now - 48 * 60 * 60 * 1000 < s.ts)).length
        ≤ MAX_30MIN_SNAPSHOTS →
        (rollupSnapshots now td).snapshots.length ≤ MAX_30MIN_SNAPSHOTS)
    ∧ (hourlyRollupEntries
        (td.snapshots.filter fun s => decide (s.ts ≤ now - 48 * 60 * 60 * 1000))).length =
      (firstKeys ((td.snapshots.filter fun s =>
        decide (s.ts ≤ now - 48 * 60 * 60 * 1000)).map fun s => hourKeyOf s.ts)).length
    ∧ ∀ s ∈ td.snapshots.filter fun s => decide (s.ts ≤ now - 48 * 60 * 60 * 1000),
        hourKeyOf s.ts ∈ firstKeys ((td.snapshots.filter fun s =>
          decide (s.ts ≤ now - 48 * 60 * 60 * 1000)).map fun s => hourKeyOf s.ts) := by
  have hfine : rollupFine now td =
      { snapshots := td.snapshots.filter fun s => decide (now - 48 * 60 * 60 * 1000 < s.ts)
        hourly := (hourlyRollupEntries
            (td.snapshots.filter fun s => decide (s.ts ≤ now - 48 * 60 * 60 * 1000))).reverse
          ++ td.hourly
        daily := td.daily } := by
    unfold rollupFine
    rw [if_pos h1]
  have hh : ¬ MAX_HOURLY_SNAPSHOTS < (rollupFine now td).hourly.length := by
    rw [hfine]
    simp only [List.length_append, List.length_reverse]
    omega
  have hhourly : rollupHourly now (rollupFine now td) = rollupFine now td := by
    unfold rollupHourly
    rw [if_neg hh]
  have hres : ∀ p : TokenData → List Snap, p = TokenData.snapshots ∨ p = TokenData.hourly →
      p (rollupSnapshots now td) = p (rollupFine now td) := by
    intro p hp
    rcases hp with rfl | rfl
    · rw [rollupSnapshots, hhourly, (trimDaily_preserves _).1]
    · rw [rollupSnapshots, hhourly, (trimDaily_preserves _).2]
  refine ⟨?_, ?_, ?_, List.length_map _ _, ?_⟩
  · rw [hres TokenData.snapshots (Or.inl rfl), hfine]
  · rw [hres TokenData.hourly (Or.inr rfl), hfine]
  · intro hk
    rw [hres TokenData.snapshots (Or.inl rfl), hfine]
    exact hk
  · intro s hs
    rw [mem_firstKeys]
    exact List.mem_map.2 ⟨s, hs, rfl⟩

/-- C2 witness: 97 stale snapshots roll up into a single hourly average and
empty the fine list. -/
theorem rollupSnapshots_overflow_witness :
    MAX_30MIN_SNAPSHOTS <
      (⟨List.replicate 97 ⟨0, 0, 0, 0, 0, 10, 0⟩, [], []⟩ : TokenData).snapshots.length
    ∧ (⟨List.replicate 97 ⟨0, 0, 0, 0, 0, 10, 0⟩, [], []⟩ : TokenData).hourly.length +
        (hourlyRollupEntries
          ((⟨List.replicate 97 ⟨0, 0, 0, 0, 0, 10, 0⟩, [], []⟩ : TokenData).snapshots.filter
            fun s => decide (s.ts ≤ 200000000 - 48 * 60 * 60 * 1000))).length
      ≤ MAX_HOURLY_SNAPSHOTS
    ∧ (rollupSnapshots 200000000
        ⟨List.replicate 97 ⟨0, 0, 0, 0, 0, 10, 0⟩, [], []⟩).snapshots =
      (⟨List.replicate 97 ⟨0, 0, 0, 0, 0, 10, 0⟩, [], []⟩ : TokenData).snapshots.filter
        (fun s => decide (200000000 - 48 * 60 * 60 * 1000 < s.ts)) :=
  ⟨by decide, by decide,
    (rollupSnapshots_overflow 200000000
      ⟨List.replicate 97 ⟨0, 0, 0, 0, 0, 10, 0⟩, [], []⟩ (by decide) (by decide)).1⟩

/-! ### C9: rollup averages -/

theorem sumBy_div_eq_ratMean (g : List Snap) (f : Snap → Rat) :
    sumBy f g / g.length = ratMean (g.map f) := by
  rw [sumBy, foldl_add_eq_sum, ratMean, List.length_map, zero_add]

/-- C9: every entry produced by an hourly or daily rollup averages one
non-empty key group: the monetary/volume fields are the exact mean of the
group's values, and the holders field is the `Math.round` of the mean of the
group's holders. -/
theorem rollupEntries_average (toRollup : List Snap) :
    (∀ e ∈ hourlyRollupEntries toRollup, ∃ k,
      (toRollup.filter fun s => decide (hourKeyOf s.ts = k)) ≠ []
      ∧ e.price =
        ratMean ((toRollup.filter fun s => decide (hourKeyOf s.ts = k)).map (·.price))
      ∧ e.volume24h =
        ratMean ((toRollup.filter fun s => decide (hourKeyOf s.ts = k)).map (·.volume24h))
      ∧ e.liquidity =
        ratMean ((toRollup.filter fun s => decide (hourKeyOf s.ts = k)).map (·.liquidity))
      ∧ e.liqMcapRatio =
        ratMean ((toRollup.filter fun s => decide (hourKeyOf s.ts = k)).map (·.liqMcapRatio))
      ∧ e.tokensInLP =
        ratMean ((toRollup.filter fun s => decide (hourKeyOf s.ts = k)).map (·.tokensInLP))
      ∧ e.holders = (jsRound (ratMean
          ((toRollup.filter fun s => decide (hourKeyOf s.ts = k)).map (·.holders))) : Rat))
    ∧ (∀ e ∈ dailyRollupEntries toRollup, ∃ k,
      (toRollup.filter fun s => decide (dayKeyOf s.ts = k)) ≠ []
      ∧ e.price =
        ratMean ((toRollup.filter fun s => decide (dayKeyOf s.ts = k)).map (·.price))
      ∧ e.volume24h =
        ratMean ((toRollup.filter fun s => decide (dayKeyOf s.ts = k)).map (·.volume24h))
      ∧ e.liquidity =
        ratMean ((toRollup.filter fun s => decide (dayKeyOf s.ts = k)).map (·.liquidity))
      ∧ e.liqMcapRatio =
        ratMean ((toRollup.filter fun s => decide (dayKeyOf s.ts = k)).map (·.liqMcapRatio))
      ∧ e.tokensInLP =
        ratMean ((toRollup.filter fun s => decide (dayKeyOf s.ts = k)).map (·.tokensInLP))
      ∧ e.holders = (jsRound (ratMean
          ((toRollup.filter fun s => decide (dayKeyOf s.ts = k)).map (·.holders))) : Rat)) := by
  constructor
  · intro e he
    rcases List.mem_map.1 he with ⟨k, hk, rfl⟩
    rw [mem_firstKeys] at hk
    rcases List.mem_map.1 hk with ⟨s, hsR, hks⟩
    refine ⟨k, List.ne_nil_of_mem (List.mem_filter.2 ⟨hsR, by simp [hks]⟩),
      sumBy_div_eq_ratMean _ _, sumBy_div_eq_ratMean _ _, sumBy_div_eq_ratMean _ _,
      sumBy_div_eq_ratMean _ _, sumBy_div_eq_ratMean _ _, ?_⟩
    show ((jsRound (sumBy (·.holders) _ / _) : Int) : Rat) = _
    rw [sumBy_div_eq_ratMean]
  · intro e he
    rcases List.mem_map.1 he with ⟨k, hk, rfl⟩
    rw [mem_firstKeys] at hk
    rcases List.mem_map.1 hk with ⟨s, hsR, hks⟩
    refine ⟨k, List.ne_nil_of_mem (List.mem_filter.2 ⟨hsR, by simp [hks]⟩),
      sumBy_div_eq_ratMean _ _, sumBy_div_eq_ratMean _ _, sumBy_div_eq_ratMean _ _,
      sumBy_div_eq_ratMean _ _, sumBy_div_eq_ratMean _ _, ?_⟩
    show ((jsRound (sumBy (·.holders) _ / _) : Int) : Rat) = _
    rw [sumBy_div_eq_ratMean]

/-- Concrete rolled-over set used to witness the rollup averaging: two
snapshots in the same hour (and day) with holders 10 and 11. -/
def rollupWitnessInput : List Snap :=
  [⟨0, 0, 0, 0, 0, 10, 0⟩, ⟨60000, 0, 0, 0, 0, 11, 0⟩]

/-- C9 witness: the averaging property applied to the single hourly entry and
the single daily entry produced from `rollupWitnessInput`. -/
theorem rollupEntries_average_witness :
    (∃ k, (rollupWitnessInput.filter fun s => decide (hourKeyOf s.ts = k)) ≠ []
      ∧ (hourlyAvg 0 (rollupWitnessInput.filter fun s =>
          decide (hourKeyOf s.ts = 0))).price =
        ratMean ((rollupWitnessInput.filter fun s =>
          decide (hourKeyOf s.ts = k)).map (·.price))
      ∧ (hourlyAvg 0 (rollupWitnessInput.filter fun s =>
          decide (hourKeyOf s.ts = 0))).volume24h =
        ratMean ((rollupWitnessInput.filter fun s =>
          decide (hourKeyOf s.ts = k)).map (·.volume24h))
      ∧ (hourlyAvg 0 (rollupWitnessInput.filter fun s =>
          decide (hourKeyOf s.ts = 0))).liquidity =
        ratMean ((rollupWitnessInput.filter fun s =>
          decide (hourKeyOf s.ts = k)).map (·.liquidity))
      ∧ (hourlyAvg 0 (rollupWitnessInput.filter fun s =>
          decide (hourKeyOf s.ts = 0))).liqMcapRatio =
        ratMean ((rollupWitnessInput.filter fun s =>
          decide (hourKeyOf s.ts = k)).map (·.liqMcapRatio))
      ∧ (hourlyAvg 0 (rollupWitnessInput.filter fun s =>
          decide (hourKeyOf s.ts = 0))).tokensInLP =
        ratMean ((rollupWitnessInput.filter fun s =>
          decide (hourKeyOf s.ts = k)).map (·.tokensInLP))
      ∧ (hourlyAvg 0 (rollupWitnessInput.filter fun s =>
          decide (hourKeyOf s.ts = 0))).holders =
        (jsRound (ratMean ((rollupWitnessInput.filter fun s =>
          decide (hourKeyOf s.ts = k)).map (·.holders))) : Rat))
    ∧ (∃ k, (rollupWitnessInput.filter fun s => decide (dayKeyOf s.ts = k)) ≠ []
      ∧ (dailyAvg 0 (rollupWitnessInput.filter fun s =>
          decide (dayKeyOf s.ts = 0))).price =
        ratMean ((rollupWitnessInput.filter fun s =>
          decide (dayKeyOf s.ts = k)).map (·.price))
      ∧ (dailyAvg 0 (rollupWitnessInput.filter fun s =>
          decide (dayKeyOf s.ts = 0))).volume24h =
        ratMean ((rollupWitnessInput.filter fun s =>
          decide (dayKeyOf s.ts = k)).map (·.volume24h))
      ∧ (dailyAvg 0 (rollupWitnessInput.filter fun s =>
          decide (dayKeyOf s.ts = 0))).liquidity =
        ratMean ((rollupWitnessInput.filter fun s =>
          decide (dayKeyOf s.ts = k)).map (·.liquidity))
      ∧ (dailyAvg 0 (rollupWitnessInput.filter fun s =>
          decide (dayKeyOf s.ts = 0))).liqMcapRatio =
        ratMean ((rollupWitnessInput.filter fun s =>
          decide (dayKeyOf s.ts = k)).map (·.liqMcapRatio))
      ∧ (dailyAvg 0 (rollupWitnessInput.filter fun s =>
          decide (dayKeyOf s.ts = 0))).tokensInLP =
        ratMean ((rollupWitnessInput.filter fun s =>
          decide (dayKeyOf s.ts = k)).map (·.tokensInLP))
      ∧ (dailyAvg 0 (rollupWitnessInput.filter fun s =>
          decide (dayKeyOf s.ts = 0))).holders =
        (jsRound (ratMean ((rollupWitnessInput.filter fun s =>
          decide (dayKeyOf s.ts = k)).map (·.holders))) : Rat)) := by
  constructor
  · exact (rollupEntries_average rollupWitnessInput).1
      (hourlyAvg 0 (rollupWitnessInput.filter fun s => decide (hourKeyOf s.ts = 0)))
      (by
        have h : hourlyRollupEntries rollupWitnessInput =
            [hourlyAvg 0 (rollupWitnessInput.filter fun s =>
              decide (hourKeyOf s.ts = 0))] := rfl
        rw [h]
        exact List.mem_singleton.2 rfl)
  · exact (rollupEntries_average rollupWitnessInput).2
      (dailyAvg 0 (rollupWitnessInput.filter fun s => decide (dayKeyOf s.ts = 0)))
      (by
        have h : dailyRollupEntries rollupWitnessInput =
            [dailyAvg 0 (rollupWitnessInput.filter fun s =>
              decide (dayKeyOf s.ts = 0))] := rfl
        rw [h]
        exact List.mem_singleton.2 rfl)

/-! ### Pagination loops of the burn fetchers

The network is modelled by an explicit list of responses, one consumed per
request; `none` models a failed request (`moralisRequest`/`fetchWithRetry`
returning `null`).  A loop that runs out of modelled responses is reported as
`streamEnded`: it had not stopped on its own at that point. -/

/-- A Moralis transfer record: `block_timestamp` (epoch ms), raw `value`
(base units, a decimal string parsed with `BigInt`), `from_address`. -/
structure MTx where
  block_timestamp : Int
  value : Int
  from_address : String
deriving DecidableEq, Repr

/-- A Moralis transfers page: the `result` array and the next-page `cursor`
(`none` models an absent cursor). -/
structure MPage where
  result : List MTx
  cursor : Option String
deriving DecidableEq, Repr

/-- Why the Moralis `fetchAllBurns` pagination loop returned. -/
inductive FetchStop where
  | emptyPage
  | noCursor
  | reachedOld
  | streamEnded
deriving DecidableEq, Repr

/-- Normalisation of one transfer:
`{ t: timestamp, a: Number(BigInt(tx.value||'0')) / 10**decimals, f: from.toLowerCase() }`. -/
def mkBurn (dec : Nat) (tx : MTx) : CBurn :=
  ⟨tx.block_timestamp, (tx.value : Rat) / (10 : Rat) ^ dec, tx.from_address.toLower⟩

/-- The inner `for (const tx of data.result)` loop: collect normalised burns
until a record at or before the watermark is reached (only when the watermark
is truthy, i.e. non-zero); returns the collected prefix and whether the
watermark was hit. -/
def processTxs (dec : Nat) (lastTs : Int) : List MTx → List CBurn × Bool
  | [] => ([], false)
  | tx :: rest =>
    if lastTs ≠ 0 ∧ tx.block_timestamp ≤ lastTs then ([], true)
    else
      let pr := processTxs dec lastTs rest
      (mkBurn dec tx :: pr.1, pr.2)

/-- The Moralis `fetchAllBurns` pagination loop over a modelled response
stream: a failed request is retried (the loop `continue`s, consuming the next
response, with no error bound); an empty `result` stops the loop; reaching the
watermark stops it; a falsy cursor stops it; otherwise the next page is
fetched. -/
def fetchLoop (dec : Nat) (lastTs : Int) : List (Option MPage) → List CBurn × FetchStop
  | [] => ([], .streamEnded)
  | none :: rest => fetchLoop dec lastTs rest
  | some pg :: rest =>
    if pg.result.length = 0 then ([], .emptyPage)
    else
      let pr := processTxs dec lastTs pg.result
      if pr.2 then (pr.1, .reachedOld)
      else
        match pg.cursor with
        | none => (pr.1, .noCursor)
        | some c =>
          if c = "" then (pr.1, .noCursor)
          else
            let nxt := fetchLoop dec lastTs rest
            (pr.1 ++ nxt.1, nxt.2)

/-- A blockscout transfer record as consumed by `fetchBurnTransfers`:
`timestamp`, destination hash, raw value, transaction hash, source hash. -/
structure BTx where
  timestamp : Int
  toHash : String
  value : Int
  txHash : String
  fromHash : String
deriving DecidableEq, Repr

/-- A blockscout page: the `items` array and whether `next_page_params` is
present. -/
structure BPage where
  items : List BTx
  hasNext : Bool
deriving DecidableEq, Repr

/-- Why a blockscout pagination loop returned. -/
inductive BStop where
  | noItems
  | noNext
  | reachedOld
  | errorCap
  | pageCap
  | streamEnded
deriving DecidableEq, Repr

/-- The burn address constant. -/
def burnAddressHex : String := "0x0000000000000000000000000000000000000369"

/-- The inner item loop of `fetchBurnTransfers`: skip transfers not addressed
to the burn address, stop at the watermark (when truthy), otherwise collect
`{ timestamp, amount, txHash, from }` records. -/
def processBTxs (dec : Nat) (lastTs : Int) : List BTx → List MBurn × Bool
  | [] => ([], false)
  | tx :: rest =>
    if tx.toHash.toLower ≠ burnAddressHex.toLower then processBTxs dec lastTs rest
    else if lastTs ≠ 0 ∧ tx.timestamp ≤ lastTs then ([], true)
    else
      let pr := processBTxs dec lastTs rest
      (⟨tx.timestamp, (tx.value : Rat) / (10 : Rat) ^ dec, some tx.txHash,
        tx.fromHash.toLower⟩ :: pr.1, pr.2)

/-- The `fetchBurnTransfers` pagination loop (incremental blockscout variant):
`while (page < maxPages && !reachedOldData && consecutiveErrors < 5)`; a
failed request increments the consecutive-error counter and retries, a success
resets it; the loop also stops on an empty page, on the watermark, and when no
`next_page_params` is returned. -/
def bscanLoop (dec : Nat) (lastTs : Int) (maxPages : Nat) :
    Nat → Nat → List (Option BPage) → List MBurn × BStop
  | page, errs, resps =>
    if ¬ page < maxPages then ([], .pageCap)
    else if ¬ errs < 5 then ([], .errorCap)
    else
      match resps with
      | [] => ([], .streamEnded)
      | none :: rest => bscanLoop dec lastTs maxPages page (errs + 1) rest
      | some pg :: rest =>
        if pg.items.length = 0 then ([], .noItems)
        else
          let pr := processBTxs dec lastTs pg.items
          if pr.2 then (pr.1, .reachedOld)
          else if pg.hasNext then
            let nxt := bscanLoop dec lastTs maxPages (page + 1) 0 rest
            (pr.1 ++ nxt.1, nxt.2)
          else (pr.1, .noNext)

/-- The inner item loop of the v3 `fetchAllBurns`: stop at the watermark
(when truthy), otherwise collect `{ t, a, f }` records (no to-address
filter). -/
def processVTxs (dec : Nat) (lastTs : Int) : List BTx → List CBurn × Bool
  | [] => ([], false)
  | tx :: rest =>
    if lastTs ≠ 0 ∧ tx.timestamp ≤ lastTs then ([], true)
    else
      let pr := processVTxs dec lastTs rest
      (⟨tx.timestamp, (tx.value : Rat) / (10 : Rat) ^ dec, tx.fromHash.toLower⟩ :: pr.1,
        pr.2)

/-- The v3 `fetchAllBurns` pagination loop (blockscout, no page cap):
`while (!reachedOldData && consecutiveErrors < 5)` with the same error
counting; items are collected without a to-address filter. -/
def v3Loop (dec : Nat) (lastTs : Int) :
    Nat → List (Option BPage) → List CBurn × BStop
  | errs, resps =>
    if ¬ errs < 5 then ([], .errorCap)
    else
      match resps with
      | [] => ([], .streamEnded)
      | none :: rest => v3Loop dec lastTs (errs + 1) rest
      | some pg :: rest =>
        if pg.items.length = 0 then ([], .noItems)
        else
          let pr := processVTxs dec lastTs pg.items
          if pr.2 then (pr.1, .reachedOld)
          else if pg.hasNext then
            let nxt := v3Loop dec lastTs 0 rest
            (pr.1 ++ nxt.1, nxt.2)
          else (pr.1, .noNext)

theorem processTxs_gt_watermark (dec : Nat) (lastTs : Int) (hpos : 0 < lastTs) :
    ∀ txs : List MTx, ∀ b ∈ (processTxs dec lastTs txs).1, lastTs < b.t := by
  intro txs
  induction txs with
  | nil => intro b hb; simp [processTxs] at hb
  | cons tx rest ih =>
    intro b hb
    simp only [processTxs] at hb
    by_cases hc : lastTs ≠ 0 ∧ tx.block_timestamp ≤ lastTs
    · rw [if_pos hc] at hb
      simp at hb
    · rw [if_neg hc] at hb
      rcases List.mem_cons.1 hb with rfl | hb
      · have hts : ¬ tx.block_timestamp ≤ lastTs := fun hle => hc ⟨by omega, hle⟩
        show lastTs < tx.block_timestamp
        omega
      · exact ih b hb

theorem processTxs_reached (dec : Nat) (lastTs : Int) :
    ∀ txs : List MTx, (processTxs dec lastTs txs).2 = true →
      lastTs ≠ 0 ∧ ∃ tx ∈ txs, tx.block_timestamp ≤ lastTs := by
  intro txs
  induction txs with
  | nil => intro h; simp [processTxs] at h
  | cons tx rest ih =>
    intro h
    simp only [processTxs] at h
    by_cases hc : lastTs ≠ 0 ∧ tx.block_timestamp ≤ lastTs
    · exact ⟨hc.1, tx, List.mem_cons_self _ _, hc.2⟩
    · rw [if_neg hc] at h
      rcases ih h with ⟨h0, tx2, htx2, hle⟩
      exact ⟨h0, tx2, List.mem_cons_of_mem _ htx2, hle⟩

theorem fetchLoop_gt_watermark (dec : Nat) (lastTs : Int) (hpos : 0 < lastTs) :
    ∀ pages : List (Option MPage), ∀ b ∈ (fetchLoop dec lastTs pages).1, lastTs < b.t := by
  intro pages
  induction pages with
  | nil => intro b hb; simp [fetchLoop] at hb
  | cons hd rest ih =>
    intro b hb
    match hd with
    | none =>
      rw [show fetchLoop dec lastTs (none :: rest) = fetchLoop dec lastTs rest from rfl] at hb
      exact ih b hb
    | some pg =>
      simp only [fetchLoop] at hb
      by_cases he : pg.result.length = 0
      · rw [if_pos he] at hb
        simp at hb
      · rw [if_neg he] at hb
        by_cases hr : (processTxs dec lastTs pg.result).2
        · rw [if_pos hr] at hb
          exact processTxs_gt_watermark dec lastTs hpos pg.result b hb
        · rw [if_neg hr] at hb
          rcases hcur : pg.cursor with _ | c
          · rw [hcur] at hb
            dsimp only at hb
            exact processTxs_gt_watermark dec lastTs hpos pg.result b hb
          · rw [hcur] at hb
            dsimp only at hb
            by_cases hcc : c = ""
            · rw [if_pos hcc] at hb
              exact processTxs_gt_watermark dec lastTs hpos pg.result b hb
            · rw [if_neg hcc] at hb
              rcases List.mem_append.1 hb with hb | hb
              · exact processTxs_gt_watermark dec lastTs hpos pg.result b hb
              · exact ih b hb

theorem fetchLoop_reachedOld (dec : Nat) (lastTs : Int) :
    ∀ pages : List (Option MPage),
      (fetchLoop dec lastTs pages).2 = FetchStop.reachedOld →
        lastTs ≠ 0 ∧ ∃ pg : MPage, some pg ∈ pages ∧
          ∃ tx ∈ pg.result, tx.block_timestamp ≤ lastTs := by
  intro pages
  induction pages with
  | nil => intro h; simp [fetchLoop] at h
  | cons hd rest ih =>
    intro h
    match hd with
    | none =>
      rcases ih h with ⟨h0, pg, hpg, htx⟩
      exact ⟨h0, pg, List.mem_cons_of_mem _ hpg, htx⟩
    | some pg =>
      simp only [fetchLoop] at h
      by_cases he : pg.result.length = 0
      · rw [if_pos he] at h
        simp at h
      · rw [if_neg he] at h
        by_cases hr : (processTxs dec lastTs pg.result).2
        · rcases processTxs_reached dec lastTs pg.result hr with ⟨h0, tx, htx, hle⟩
          exact ⟨h0, pg, List.mem_cons_self _ _, tx, htx, hle⟩
        · rw [if_neg hr] at h
          rcases hcur : pg.cursor with _ | c
          · rw [hcur] at h
            dsimp only at h
            simp at h
          · rw [hcur] at h
            dsimp only at h
            by_cases hcc : c = ""
            · rw [if_pos hcc] at h
              simp at h
            · rw [if_neg hcc] at h
              rcases ih h with ⟨h0, pg2, hpg2, htx2⟩
              exact ⟨h0, pg2, List.mem_cons_of_mem _ hpg2, htx2⟩

theorem processBTxs_gt_watermark (dec : Nat) (lastTs : Int) (hpos : 0 < lastTs) :
    ∀ txs : List BTx, ∀ b ∈ (processBTxs dec lastTs txs).1, lastTs < b.timestamp := by
  intro txs
  induction txs with
  | nil => intro b hb; simp [processBTxs] at hb
  | cons tx rest ih =>
    intro b hb
    simp only [processBTxs] at hb
    by_cases ht : tx.toHash.toLower ≠ burnAddressHex.toLower
    · rw [if_pos ht] at hb
      exact ih b hb
    · rw [if_neg ht] at hb
      by_cases hc : lastTs ≠ 0 ∧ tx.timestamp ≤ lastTs
      · rw [if_pos hc] at hb
        simp at hb
      · rw [if_neg hc] at hb
        rcases List.mem_cons.1 hb with rfl | hb
        · have hts : ¬ tx.timestamp ≤ lastTs := fun hle => hc ⟨by omega, hle⟩
          show lastTs < tx.timestamp
          omega
        · exact ih b hb

theorem bscanLoop_gt_watermark (dec : Nat) (lastTs : Int) (mp : Nat) (hpos : 0 < lastTs) :
    ∀ (resps : List (Option BPage)) (page errs : Nat),
      ∀ b ∈ (bscanLoop dec lastTs mp page errs resps).1, lastTs < b.timestamp := by
  intro resps
  induction resps with
  | nil =>
    intro page errs b hb
    simp only [bscanLoop] at hb
    split_ifs at hb <;> simp at hb
  | cons hd rest ih =>
    intro page errs b hb
    rcases hd with _ | pg <;> simp only [bscanLoop] at hb
    · by_cases hp : ¬ page < mp
      · rw [if_pos hp] at hb
        simp at hb
      · rw [if_neg hp] at hb
        by_cases herr : ¬ errs < 5
        · rw [if_pos herr] at hb
          simp at hb
        · rw [if_neg herr] at hb
          exact ih page (errs + 1) b hb
    · by_cases hp : ¬ page < mp
      · rw [if_pos hp] at hb
        simp at hb
      · rw [if_neg hp] at hb
        by_cases herr : ¬ errs < 5
        · rw [if_pos herr] at hb
          simp at hb
        · rw [if_neg herr] at hb
          by_cases he : pg.items.length = 0
          · rw [if_pos he] at hb
            simp at hb
          · rw [if_neg he] at hb
            by_cases hr : (processBTxs dec lastTs pg.items).2
            · rw [if_pos hr] at hb
              exact processBTxs_gt_watermark dec lastTs hpos pg.items b hb
            · rw [if_neg hr] at hb
              by_cases hn : pg.hasNext
              · rw [if_pos hn] at hb
                rcases List.mem_append.1 hb with hb | hb
                · exact processBTxs_gt_watermark dec lastTs hpos pg.items b hb
                · exact ih (page + 1) 0 b hb
              · rw [if_neg hn] at hb
                exact processBTxs_gt_watermark dec lastTs hpos pg.items b hb

/-! ### C3: stop conditions of the paginated burn fetch -/

/-- C3 counterexample: the `fetchBurnTransfers` loop stops after 5 consecutive
failed page requests (and a loop started at the page cap stops immediately) —
in neither case was a zero-record page, a missing next-page cursor, or a
watermark record encountered, so the fetch does not stop *exactly* at those
three conditions. -/
theorem bscanLoop_stops_without_abc :
    bscanLoop 18 7 1000 0 0 (List.replicate 5 none) = ([], BStop.errorCap)
    ∧ bscanLoop 18 7 1000 1000 0 [] = ([], BStop.pageCap) := by
  constructor <;> decide

/-- C3 (amended): the Moralis `fetchAllBurns` loop stops only at (a) an empty
page, (b) a missing/falsy cursor, or (c) a record at or before a truthy
watermark — its only other behaviour is to keep consuming responses — and the
`reachedOld` stop really is caused by an encountered record at or before the
watermark.  The blockscout `fetchBurnTransfers` loop additionally stops at 5
consecutive errors or at its page cap.  In every loop, when the watermark is
positive, every newly collected record has timestamp strictly greater than the
watermark. -/
theorem fetch_stop_conditions (dec : Nat) (lastTs : Int)
    (pages : List (Option MPage)) (mp page errs : Nat)
    (resps : List (Option BPage)) :
    (0 < lastTs → ∀ b ∈ (fetchLoop dec lastTs pages).1, lastTs < b.t)
    ∧ ((fetchLoop dec lastTs pages).2 ≠ FetchStop.streamEnded →
        (fetchLoop dec lastTs pages).2 = FetchStop.emptyPage
        ∨ (fetchLoop dec lastTs pages).2 = FetchStop.noCursor
        ∨ (fetchLoop dec lastTs pages).2 = FetchStop.reachedOld)
    ∧ ((fetchLoop dec lastTs pages).2 = FetchStop.reachedOld →
        lastTs ≠ 0 ∧ ∃ pg : MPage, some pg ∈ pages ∧
          ∃ tx ∈ pg.result, tx.block_timestamp ≤ lastTs)
    ∧ (0 < lastTs → ∀ b ∈ (bscanLoop dec lastTs mp page errs resps).1,
        lastTs < b.timestamp) := by
  refine ⟨fun h => fetchLoop_gt_watermark dec lastTs h pages, ?_,
    fetchLoop_reachedOld dec lastTs pages,
    fun h => bscanLoop_gt_watermark dec lastTs mp h resps page errs⟩
  intro hne
  rcases hstop : (fetchLoop dec lastTs pages).2 with _ | _ | _ | _
  · exact Or.inl rfl
  · exact Or.inr (Or.inl rfl)
  · exact Or.inr (Or.inr rfl)
  · exact absurd hstop hne

/-- C3 witness: one page whose second record is at the watermark; the loop
stops with `reachedOld` and the collected record is strictly newer than the
watermark. -/
theorem fetch_stop_conditions_witness :
    ((0 : Int) < 5
      ∧ ∀ b ∈ (fetchLoop 0 5 [some ⟨[⟨10, 3, "A"⟩, ⟨3, 4, "B"⟩], none⟩]).1, 5 < b.t)
    ∧ ((fetchLoop 0 5 [some ⟨[⟨10, 3, "A"⟩, ⟨3, 4, "B"⟩], none⟩]).2 =
        FetchStop.reachedOld
      ∧ (5 : Int) ≠ 0 ∧ ∃ pg : MPage,
          some pg ∈ [some (⟨[⟨10, 3, "A"⟩, ⟨3, 4, "B"⟩], none⟩ : MPage)] ∧
          ∃ tx ∈ pg.result, tx.block_timestamp ≤ 5) :=
  ⟨⟨by decide,
    (fetch_stop_conditions 0 5 [some ⟨[⟨10, 3, "A"⟩, ⟨3, 4, "B"⟩], none⟩]
      1000 0 0 []).1 (by decide)⟩,
   by decide,
   (fetch_stop_conditions 0 5 [some ⟨[⟨10, 3, "A"⟩, ⟨3, 4, "B"⟩], none⟩]
      1000 0 0 []).2.2.1 (by decide)⟩

/-! ### C6: termination of the pagination loops under failures -/

/-- C6 counterexample: the Moralis `fetchAllBurns` loop has no retry cap — it
retries the failing page forever.  After 100 consecutive failed requests it
has not stopped and has surfaced nothing (it is still consuming responses),
contradicting a bounded per-page retry cap after which failure is surfaced. -/
theorem fetchLoop_no_retry_cap :
    fetchLoop 18 0 (List.replicate 100 none) = ([], FetchStop.streamEnded) := by
  decide

theorem v3Loop_err_exit (dec : Nat) (lastTs : Int) :
    ∀ (k errs : Nat) (rest : List (Option BPage)), 5 ≤ errs + k →
      v3Loop dec lastTs errs (List.replicate k none ++ rest) = ([], BStop.errorCap) := by
  intro k
  induction k with
  | zero =>
    intro errs rest h5
    rcases rest with _ | ⟨hd, tl⟩
    · show v3Loop dec lastTs errs [] = _
      simp only [v3Loop]
      rw [if_pos (by omega : ¬ errs < 5)]
    · rcases hd with _ | pg
      · show v3Loop dec lastTs errs (none :: tl) = _
        simp only [v3Loop]
        rw [if_pos (by omega : ¬ errs < 5)]
      · show v3Loop dec lastTs errs (some pg :: tl) = _
        simp only [v3Loop]
        rw [if_pos (by omega : ¬ errs < 5)]
  | succ k ih =>
    intro errs rest h5
    by_cases herr : errs < 5
    · show v3Loop dec lastTs errs (none :: (List.replicate k none ++ rest)) = _
      simp only [v3Loop]
      rw [if_neg (by omega : ¬ ¬ errs < 5)]
      exact ih (errs + 1) rest (by omega)
    · show v3Loop dec lastTs errs (none :: (List.replicate k none ++ rest)) = _
      simp only [v3Loop]
      rw [if_pos herr]

theorem bscanLoop_err_exit (dec : Nat) (lastTs : Int) (mp : Nat) :
    ∀ (k errs page : Nat) (rest : List (Option BPage)), page < mp → 5 ≤ errs + k →
      bscanLoop dec lastTs mp page errs (List.replicate k none ++ rest) =
        ([], BStop.errorCap) := by
  intro k
  induction k with
  | zero =>
    intro errs page rest hpage h5
    rcases rest with _ | ⟨hd, tl⟩
    · show bscanLoop dec lastTs mp page errs [] = _
      simp only [bscanLoop]
      rw [if_neg (by omega : ¬ ¬ page < mp), if_pos (by omega : ¬ errs < 5)]
    · rcases hd with _ | pg
      · show bscanLoop dec lastTs mp page errs (none :: tl) = _
        simp only [bscanLoop]
        rw [if_neg (by omega : ¬ ¬ page < mp), if_pos (by omega : ¬ errs < 5)]
      · show bscanLoop dec lastTs mp page errs (some pg :: tl) = _
        simp only [bscanLoop]
        rw [if_neg (by omega : ¬ ¬ page < mp), if_pos (by omega : ¬ errs < 5)]
  | succ k ih =>
    intro errs page rest hpage h5
    by_cases herr : errs < 5
    · show bscanLoop dec lastTs mp page errs
        (none :: (List.replicate k none ++ rest)) = _
      simp only [bscanLoop]
      rw [if_neg (by omega : ¬ ¬ page < mp), if_neg (by omega : ¬ ¬ errs < 5)]
      exact ih (errs + 1) page rest hpage (by omega)
    · show bscanLoop dec lastTs mp page errs
        (none :: (List.replicate k none ++ rest)) = _
      simp only [bscanLoop]
      rw [if_neg (by omega : ¬ ¬ page < mp), if_pos herr]

/-- C6 (amended): under an indefinitely failing API, the blockscout loops
(`fetchBurnTransfers` and the v3 `fetchAllBurns`) stop with a surfaced
error-cap exit after 5 consecutive failures, whereas the Moralis
`fetchAllBurns` loop never stops: after any number `n` of consecutive failed
requests it is still retrying, having collected nothing. -/
theorem fetch_failure_termination (dec : Nat) (lastTs : Int) (n mp page : Nat) :
    fetchLoop dec lastTs (List.replicate n none) = ([], FetchStop.streamEnded)
    ∧ (5 ≤ n → v3Loop dec lastTs 0 (List.replicate n none) = ([], BStop.errorCap))
    ∧ (5 ≤ n → page < mp →
        bscanLoop dec lastTs mp page 0 (List.replicate n none) =
          ([], BStop.errorCap)) := by
  refine ⟨?_, ?_, ?_⟩
  · induction n with
    | zero => rfl
    | succ n ih =>
      show fetchLoop dec lastTs (none :: List.replicate n none) = _
      rw [show fetchLoop dec lastTs (none :: List.replicate n none) =
        fetchLoop dec lastTs (List.replicate n none) from rfl, ih]
  · intro h5
    have := v3Loop_err_exit dec lastTs n 0 [] (by omega)
    rwa [List.append_nil] at this
  · intro h5 hpage
    have := bscanLoop_err_exit dec lastTs mp n 0 page [] hpage (by omega)
    rwa [List.append_nil] at this

/-- C6 witness: seven consecutive failures — the blockscout loops exit with
the error cap, the Moralis loop is still running. -/
theorem fetch_failure_termination_witness :
    (5 ≤ 7 ∧ (0 : Nat) < 1000)
    ∧ fetchLoop 18 0 (List.replicate 7 none) = ([], FetchStop.streamEnded)
    ∧ v3Loop 18 0 0 (List.replicate 7 none) = ([], BStop.errorCap)
    ∧ bscanLoop 18 0 1000 0 0 (List.replicate 7 none) = ([], BStop.errorCap) :=
  ⟨⟨by decide, by decide⟩,
   (fetch_failure_termination 18 0 7 1000 0).1,
   (fetch_failure_termination 18 0 7 1000 0).2.1 (by decide),
   (fetch_failure_termination 18 0 7 1000 0).2.2 (by decide) (by decide)⟩

/-! ### C7: startup credential checks

Process-level behaviour of each script is abstracted to which exit code (if
any) a run ends with and whether it reaches its output-file write; network
results are explicit parameters. -/

/-- JS truthiness of a credential environment variable: absent (`undefined`)
or empty is falsy. -/
def truthyKey : Option String → Bool
  | none => false
  | some s => s != ""

/-- The outcome of one script run: `exitCode = some c` models an explicit
`process.exit(c)`, `none` a run that completes normally; `wroteOutput` records
whether any output file was written. -/
structure ScriptOutcome where
  exitCode : Option Nat
  wroteOutput : Bool
deriving DecidableEq, Repr

/-- The burn-history fetchers (both Moralis variants) and the treasury
fetcher check `MORALIS_API_KEY` at module top level:
`if (!MORALIS_API_KEY) { console.error(...); process.exit(1); }` runs before
`main`, which is the only code that writes files; `mainWrites` abstracts
whether a keyed run reaches its write. -/
def burnHistoryScriptRun (key : Option String) (mainWrites : Bool) : ScriptOutcome :=
  if truthyKey key then ⟨none, mainWrites⟩ else ⟨some 1, false⟩

/-- fetch-coingecko-data.js checks `CONFIG.apiKey` as the first statement of
`main`, before any history file is loaded or written. -/
def coingeckoScriptRun (key : Option String) (mainWrites : Bool) : ScriptOutcome :=
  if ¬ truthyKey key then ⟨some 1, false⟩ else ⟨none, mainWrites⟩

/-- `fetchHolderCount` of the metrics collector: with no `MORALIS_API_KEY` it
logs to standard error and returns `null`; otherwise it returns the API's
total (`null` on failure). -/
def fetchHolderCountMetrics (key : Option String) (apiTotal : Option Nat) : Option Nat :=
  if truthyKey key then apiTotal else none

/-- DexScreener aggregates as consumed by `collectTokenMetrics`. -/
structure DexData where
  price : Rat
  mcap : Rat
  volume24h : Rat
  liquidity : Rat
  tokensInLP : Rat
  liqMcapRatio : Rat
  pairCount : Nat
deriving DecidableEq, Repr

/-- One token's collected metrics (`holders` may be `null`). -/
structure TokenMetrics where
  price : Rat
  volume24h : Rat
  liquidity : Rat
  mcap : Rat
  liqMcapRatio : Rat
  holders : Option Nat
  tokensInLP : Rat
  pairCount : Nat
deriving DecidableEq, Repr

/-- `collectTokenMetrics`: `null` when DexScreener fails; otherwise the
metrics, with holders from Moralis or — when that returns `null` — from the
PulseScan fallback.  (The `toFixed(2)` display rounding of `liqMcapRatio` is
floating-point string formatting and is not modelled.) -/
def collectTokenMetrics (key : Option String) (dex : Option DexData)
    (moralisTotal pulseScanHolders : Option Nat) : Option TokenMetrics :=
  match dex with
  | none => none
  | some d => some
    { price := d.price, volume24h := d.volume24h, liquidity := d.liquidity,
      mcap := d.mcap, liqMcapRatio := d.liqMcapRatio,
      holders := match fetchHolderCountMetrics key moralisTotal with
        | none => pulseScanHolders
        | some h => some h,
      tokensInLP := d.tokensInLP, pairCount := d.pairCount }

/-- The outcome of a metrics-collector run, with per-token collection
success. -/
structure MetricsRunResult where
  exitCode : Option Nat
  wroteOutput : Bool
  ptgcCollected : Bool
  ufoCollected : Bool
deriving DecidableEq, Repr

/-- `main` of the metrics collector (part of the 30-minute metrics script):
it has no credential guard; each token is collected (a `null` result is only
logged), and the metrics file is then written unconditionally, the run
completing with no explicit exit. -/
def metricsCollectorRun (key : Option String) (ptgcDex ufoDex : Option DexData)
    (ptgcMoralis ptgcPulse ufoMoralis ufoPulse : Option Nat) : MetricsRunResult :=
  let m1 := collectTokenMetrics key ptgcDex ptgcMoralis ptgcPulse
  let m2 := collectTokenMetrics key ufoDex ufoMoralis ufoPulse
  { exitCode := none, wroteOutput := true,
    ptgcCollected := m1.isSome, ufoCollected := m2.isSome }

/-- C7 counterexample: the metrics collector run with `MORALIS_API_KEY`
absent does not abort — it falls back to PulseScan for holder counts, writes
its output file and completes with no exit code, contradicting "every script
aborts with a non-zero exit before writing any output". -/
theorem metricsCollector_writes_without_key :
    metricsCollectorRun none (some ⟨1, 2, 3, 4, 5, 6, 7⟩) (some ⟨1, 2, 3, 4, 5, 6, 7⟩)
      none (some 42) none (some 43) = ⟨none, true, true, true⟩ := by
  decide

/-- C7 (amended): when the required credential is missing (absent or empty),
the burn-history/treasury fetchers and the coingecko fetcher abort with
`process.exit(1)` before writing anything; the metrics collector instead
continues, always reaching its write and completing without an exit code. -/
theorem credential_guard (key : Option String) (w : Bool)
    (hk : truthyKey key = false) :
    burnHistoryScriptRun key w = ⟨some 1, false⟩
    ∧ coingeckoScriptRun key w = ⟨some 1, false⟩
    ∧ ∀ (pd ud : Option DexData) (pm pp um up : Option Nat),
        (metricsCollectorRun key pd ud pm pp um up).exitCode = none
        ∧ (metricsCollectorRun key pd ud pm pp um up).wroteOutput = true := by
  refine ⟨?_, ?_, fun pd ud pm pp um up => ⟨rfl, rfl⟩⟩
  · simp [burnHistoryScriptRun, hk]
  · simp [coingeckoScriptRun, hk]

/-- C7 witness: the guards at an absent key. -/
theorem credential_guard_witness :
    truthyKey none = false
    ∧ burnHistoryScriptRun none true = ⟨some 1, false⟩
    ∧ coingeckoScriptRun none true = ⟨some 1, false⟩ :=
  ⟨by decide, (credential_guard none true (by decide)).1,
    (credential_guard none true (by decide)).2.1⟩
